import Mathlib

/-!
Verification of `mediasync.py`, a script that copies media files discovered
under configured source roots into category-specific destination directories,
keeping an SQLite ledger of already-processed (sourcePath, categoryName)
pairs so each pair is handled at most once across runs.

Paths, SQL values and diagnostic messages are modelled as `List Char`.
The filesystem, the SQLite connection and the regular-expression engine are
external collaborators; they are embedded as explicit state (`FS`, `DBState`)
plus oracles for the I/O outcomes (`IOEnv`) and compiled regexes
(`List Char → Bool` matcher functions).  Uncaught Python exceptions are
embedded as `Except` errors that propagate out of the sync loop.
-/

deriving instance DecidableEq for Except

/-- Lower-casing used to model `re.IGNORECASE` (ASCII paths). -/
def lowerList (s : List Char) : List Char := s.map Char.toLower

/-- Models `re.search(re.escape(extension) + "$", path, re.IGNORECASE) is not None`
(mediasync.py line 74).  `re.escape` makes the extension literal; the `$`
anchor matches at the end of the string or just before a trailing newline. -/
def extSuffixMatch (ext path : List Char) : Bool :=
  (lowerList ext).isSuffixOf (lowerList path) ||
    ((lowerList ext) ++ ['\n']).isSuffixOf (lowerList path)

/-- Models `re.search(re.escape(pat), s) is not None` (mediasync.py line 26):
whether `pat` occurs as a contiguous subsequence anywhere in `s`. -/
def containsSeq (pat : List Char) : List Char → Bool
  | [] => pat.isEmpty
  | c :: rest => pat.isPrefixOf (c :: rest) || containsSeq pat rest

/-- Fuel-indexed worker for `removeAll`; `fuel > s.length` is always enough. -/
def removeAllAux (pat : List Char) : Nat → List Char → List Char
  | 0, s => s
  | _ + 1, [] => []
  | fuel + 1, c :: rest =>
    if pat.isEmpty then c :: removeAllAux pat fuel rest
    else if pat.isPrefixOf (c :: rest) then
      removeAllAux pat fuel (rest.drop (pat.length - 1))
    else c :: removeAllAux pat fuel rest

/-- Models Python `s.replace(pat, "")` (mediasync.py line 34): removes every
leftmost non-overlapping occurrence of `pat` from `s`, scanning left to right. -/
def removeAll (pat s : List Char) : List Char := removeAllAux pat (s.length + 1) s

/-- The `CopyCommand` class of mediasync.py (lines 20-57): an ephemeral copy
mapping from one source file to its derived destination path. -/
structure CopyCommand where
  sourcePath : List Char
  destinationPath : List Char
deriving DecidableEq, Repr

/-- Message of the `AssertionError` raised by `CopyCommand.__init__`. -/
def assertMsg : List Char := "sourcePath does not include sourceRoot".toList

/-- `CopyCommand.__init__` (mediasync.py lines 24-34): raises `AssertionError`
when `re.search(re.escape(sourceRoot), sourcePath)` finds no occurrence of
`sourceRoot` anywhere in `sourcePath`; otherwise sets `destinationPath` to
`destinationRoot + sourcePath.replace(sourceRoot, "")`. -/
def CopyCommand.init (sourceRoot destinationRoot sourcePath : List Char) :
    Except (List Char) CopyCommand :=
  if containsSeq sourceRoot sourcePath then
    .ok ⟨sourcePath, destinationRoot ++ removeAll sourceRoot sourcePath⟩
  else
    .error assertMsg

/-- Filesystem model: a set of existing directories and a map from file paths
to file contents (most recent write listed first). -/
structure FS where
  dirs : List (List Char)
  files : List (List Char × List Char)
deriving DecidableEq, Repr

/-- `os.path.isdir`. -/
def FS.isdir (fs : FS) (p : List Char) : Bool := fs.dirs.any (fun d => d == p)

/-- Reading a file's content, if present. -/
def FS.lookupFile (fs : FS) (p : List Char) : Option (List Char) :=
  (fs.files.find? (fun pr => pr.1 == p)).map (fun pr => pr.2)

/-- Writing a file: creates or overwrites the content at `p`. -/
def FS.writeFile (fs : FS) (p content : List Char) : FS :=
  ⟨fs.dirs, (p, content) :: fs.files⟩

/-- Outcomes of the fallible OS calls (`os.makedirs`, the I/O performed by
`shutil.copyfile`): `.error msg` models a raised `OSError`/`IOError` whose
`str()` is `msg`. -/
structure IOEnv where
  mkdir : List Char → Except (List Char) Unit
  copy : List Char → List Char → Except (List Char) Unit

/-- Models `s.rfind("/")` (mediasync.py line 41): index of the last `'/'`,
`none` standing for Python's `-1`. -/
def rfindSlash : List Char → Option Nat
  | [] => none
  | c :: rest =>
    match rfindSlash rest with
    | some i => some (i + 1)
    | none => if c == '/' then some 0 else none

/-- `str()` of the `IOError` raised by `shutil.copyfile` on a missing source. -/
def errNoSuchFile (p : List Char) : List Char :=
  "No such file or directory: ".toList ++ p

/-- The destination folder computed on mediasync.py lines 41-42:
`destinationPath[:destinationPath.rfind("/")]`, which is `[:-1]` (all but
the last character) when the path holds no slash. -/
def destFolder (p : List Char) : List Char :=
  match rfindSlash p with
  | some i => p.take i
  | none => p.dropLast

/-- `CopyCommand.run` (mediasync.py lines 36-57): derive the destination
folder; create it if missing, catching `OSError` to `stderr` and returning
`False`; then copy the source file's content to the destination, catching
`IOError` to `stderr` and returning `False`; return `True` on success.
The result is (success flag, filesystem after the call, stderr lines
written). -/
def CopyCommand.run (cmd : CopyCommand) (env : IOEnv) (fs : FS) :
    Bool × FS × List (List Char) :=
  let destinationFolder := destFolder cmd.destinationPath
  let afterDir : Except (List Char) FS :=
    if fs.isdir destinationFolder then .ok fs
    else
      match env.mkdir destinationFolder with
      | .error e => .error e
      | .ok _ => .ok ⟨destinationFolder :: fs.dirs, fs.files⟩
  match afterDir with
  | .error e => (false, fs, [e])
  | .ok fs1 =>
    match fs1.lookupFile cmd.sourcePath with
    | none => (false, fs1, [errNoSuchFile cmd.sourcePath])
    | some content =>
      match env.copy cmd.sourcePath cmd.destinationPath with
      | .error e => (false, fs1, [e])
      | .ok _ => (true, fs1.writeFile cmd.destinationPath content, [])

/-- The `MediaCategory` class of mediasync.py (lines 59-84).  A compiled
exclusion regex is embedded as its matcher: `some r` with
`r path = true` iff `exclusionRegex.search(path)` finds a match. -/
structure MediaCategory where
  name : List Char
  extensions : List (List Char)
  destination : List Char
  exclusionRegex : Option (List Char → Bool)

/-- `MediaCategory.belongs` (mediasync.py lines 71-84).  NOTE the source's
line 72 reads `extensionFound = ( extensions == None )`: it consults the
module-level global `extensions` left over from the configuration loop, not
`self.extensions`; that global is passed here as `globalExtensions`
(`none` models the Python value `None`).  Then each extension in
`self.extensions` is tried as a case-insensitive suffix, and finally the
optional exclusion regex is consulted. -/
def MediaCategory.belongs (self : MediaCategory)
    (globalExtensions : Option (List (List Char))) (path : List Char) : Bool :=
  let extensionFound :=
    globalExtensions.isNone || self.extensions.any (fun ext => extSuffixMatch ext path)
  if !extensionFound then false
  else
    match self.exclusionRegex with
    | some r => !(r path)
    | none => true

/-- One row of the `MediaSourceFiles` table. -/
structure Entry where
  sourcePath : List Char
  categoryName : List Char
  destinationPath : List Char
  processedTime : List Char
deriving DecidableEq, Repr

/-- The SQLite connection's view of the table: rows already committed plus
rows inserted on this connection but not yet committed.  Queries on the same
connection see both. -/
structure DBState where
  committed : List Entry
  uncommitted : List Entry
deriving DecidableEq, Repr

/-- All rows visible to queries on the connection. -/
def DBState.entries (db : DBState) : List Entry := db.committed ++ db.uncommitted

/-- The `WHERE sourcePath=? AND categoryName=?` row filter. -/
def entryMatches (p c : List Char) (e : Entry) : Bool :=
  e.sourcePath == p && e.categoryName == c

/-- The `SELECT EXISTS(SELECT 1 FROM MediaSourceFiles WHERE sourcePath=? AND
categoryName=? LIMIT 1)` query (mediasync.py line 106). -/
def DBState.containsPair (db : DBState) (p c : List Char) : Bool :=
  db.entries.any (entryMatches p c)

/-- The `INSERT INTO MediaSourceFiles VALUES (?,?,?,?)` statement
(mediasync.py line 107): appends one uncommitted row. -/
def DBState.insert (db : DBState) (e : Entry) : DBState :=
  ⟨db.committed, db.uncommitted ++ [e]⟩

/-- `connection.commit()`: makes every pending row durable. -/
def DBState.commit (db : DBState) : DBState := ⟨db.committed ++ db.uncommitted, []⟩

/-- `openDB` (mediasync.py lines 88-99): `CREATE TABLE IF NOT EXISTS` keeps
any existing rows and creates an empty table otherwise (`none` models an
absent store). -/
def openDB (existing : Option (List Entry)) : DBState := ⟨existing.getD [], []⟩

/-- One configuration-file section as handed over by `configparser`:
its name, the optional split `extensions` option, the optional `destination`
option, and the optional compiled `exclude` regex (embedded as its matcher). -/
structure ConfigSection where
  name : List Char
  extensions : Option (List (List Char))
  destination : Option (List Char)
  exclude : Option (List Char → Bool)

/-- The reserved-section test of mediasync.py lines 154-155:
`len(re.compile(r'^media', re.IGNORECASE).findall(section)) != 0`, i.e.
the section name starts with "media", case-insensitively. -/
def reservedSectionMatch (s : List Char) : Bool :=
  "media".toList.isPrefixOf (lowerList s)

/-- Message written before `sys.exit(-1)` when a section lacks `destination`. -/
def requiredOptionMissing : List Char := "Required option missing".toList

/-- Building one `MediaCategory` from a section (mediasync.py lines 158-175):
a missing `extensions` option becomes the empty list, `destination` is
required (`getD` is only reached under a presence hypothesis). -/
def sectionToCategory (s : ConfigSection) : MediaCategory :=
  ⟨s.name, s.extensions.getD [], s.destination.getD [], s.exclude⟩

/-- The category-initialization loop (mediasync.py lines 151-175): sections
whose names match the reserved pattern are skipped with `continue`; a section
without a `destination` option aborts the process (`sys.exit(-1)`, embedded
as `.error`); every other section yields a `MediaCategory`. -/
def initCategories : List ConfigSection → Except (List Char) (List MediaCategory)
  | [] => .ok []
  | s :: rest =>
    if reservedSectionMatch s.name then initCategories rest
    else
      match s.destination with
      | none => .error requiredOptionMissing
      | some _ =>
        match initCategories rest with
        | .error e => .error e
        | .ok cs => .ok (sectionToCategory s :: cs)

/-- An uncaught Python exception escaping the sync loop: the
`AssertionError` of `CopyCommand.__init__` or an `sqlite3` error from the
ledger `INSERT` (neither is caught by any handler in mediasync.py). -/
inductive SyncError
  | assertionError (msg : List Char)
  | persistenceError (e : Entry)
deriving DecidableEq, Repr

/-- Run-wide inputs of the sync loop: the I/O oracles, the category list,
the module-level global `extensions` read by `MediaCategory.belongs`
(see its doc comment), the outcome oracle for ledger inserts
(`false` models an `sqlite3` write failure), and the wall clock behind
`getTimeString` (indexed by how many times it has been read). -/
structure SyncParams where
  env : IOEnv
  categories : List MediaCategory
  globalExtensions : Option (List (List Char))
  insertOk : Entry → Bool
  clock : Nat → List Char

/-- Mutable state threaded through the sync loop: the database connection,
the filesystem, the stderr and stdout streams, how many times
`CopyCommand.run` was invoked, how many times the clock was read, and how
many times `commit` was issued. -/
structure SyncState where
  db : DBState
  fs : FS
  stderrLog : List (List Char)
  stdoutLog : List (List Char)
  copyAttempts : Nat
  time : Nat
  commits : Nat
deriving DecidableEq, Repr

/-- The `print("New media entry: " + str(values))` line (mediasync.py 203). -/
def entryPrint (e : Entry) : List Char :=
  "New media entry: ".toList ++ e.sourcePath ++ e.categoryName ++
    e.destinationPath ++ e.processedTime

/-- The body of the innermost loop of mediasync.py (lines 185-204), for one
(file, category) pair: skip if the ledger already has the pair; skip if the
category rejects the path; construct the `CopyCommand` (an `AssertionError`
propagates uncaught); run it, skipping the pair when it returns `False`;
otherwise build the row values, print them, and execute the `INSERT` (an
insert failure propagates uncaught). -/
def syncPair (P : SyncParams) (srcRoot fPath : List Char) (cat : MediaCategory)
    (st : SyncState) : Except SyncError SyncState :=
  if st.db.containsPair fPath cat.name then .ok st
  else if !(cat.belongs P.globalExtensions fPath) then .ok st
  else
    match CopyCommand.init srcRoot cat.destination fPath with
    | .error msg => .error (.assertionError msg)
    | .ok cmd =>
      match cmd.run P.env st.fs with
      | (success, fs', diags) =>
        let st1 : SyncState :=
          ⟨st.db, fs', st.stderrLog ++ diags, st.stdoutLog,
            st.copyAttempts + 1, st.time, st.commits⟩
        if !success then .ok st1
        else
          let entry : Entry := ⟨fPath, cat.name, cmd.destinationPath, P.clock st1.time⟩
          let st2 : SyncState :=
            ⟨st1.db, st1.fs, st1.stderrLog, st1.stdoutLog ++ [entryPrint entry],
              st1.copyAttempts, st1.time, st1.commits⟩
          if P.insertOk entry then
            .ok ⟨st2.db.insert entry, st2.fs, st2.stderrLog, st2.stdoutLog,
              st2.copyAttempts, st2.time + 1, st2.commits⟩
          else .error (.persistenceError entry)

/-- The `for category in mediaCategories` loop for one file. -/
def syncCats (P : SyncParams) (srcRoot fPath : List Char) :
    List MediaCategory → SyncState → Except SyncError SyncState
  | [], st => .ok st
  | c :: cs, st =>
    match syncPair P srcRoot fPath c st with
    | .error e => .error e
    | .ok st' => syncCats P srcRoot fPath cs st'

/-- The walk over the files discovered under one source root; the
`os.walk` + `os.path.join` enumeration is an external collaborator and is
supplied as the list of absolute file paths it yields. -/
def syncFiles (P : SyncParams) (srcRoot : List Char) :
    List (List Char) → SyncState → Except SyncError SyncState
  | [], st => .ok st
  | f :: rest, st =>
    match syncCats P srcRoot f P.categories st with
    | .error e => .error e
    | .ok st' => syncFiles P srcRoot rest st'

/-- The `for mediaSourcePath in mediaSourcePaths` loop: each source root
paired with the file paths discovered under it. -/
def syncSources (P : SyncParams) :
    List (List Char × List (List Char)) → SyncState → Except SyncError SyncState
  | [], st => .ok st
  | s :: rest, st =>
    match syncFiles P s.1 s.2 st with
    | .error e => .error e
    | .ok st' => syncSources P rest st'

/-- The whole sync phase of mediasync.py (lines 179-206): the triple loop
followed by the single `database.commit()` on line 206. -/
def syncRun (P : SyncParams) (sources : List (List Char × List (List Char)))
    (st : SyncState) : Except SyncError SyncState :=
  match syncSources P sources st with
  | .error e => .error e
  | .ok st' =>
    .ok ⟨st'.db.commit, st'.fs, st'.stderrLog, st'.stdoutLog,
      st'.copyAttempts, st'.time, st'.commits + 1⟩

/-- Files surviving at all states reached from `a`: every path readable in
`a` is still readable (possibly with new content) in `b`. -/
def fsPreserves (a b : FS) : Prop :=
  ∀ p, (a.lookupFile p).isSome → (b.lookupFile p).isSome

/-- An I/O environment in which no OS call fails. -/
def IOEnv.allOk (env : IOEnv) : Prop :=
  (∀ p, env.mkdir p = .ok ()) ∧ (∀ p q, env.copy p q = .ok ())

/-- The ledger invariant: the (sourcePath, categoryName) pair is unique
among the rows. -/
def uniquePairs (l : List Entry) : Prop :=
  l.Pairwise (fun a b => ¬(a.sourcePath = b.sourcePath ∧ a.categoryName = b.categoryName))

/-- The database grows only by appended uncommitted rows. -/
def dbExtends (d1 d2 : DBState) : Prop :=
  d2.committed = d1.committed ∧ ∃ new, d2.uncommitted = d1.uncommitted ++ new

/-- State evolution along any successfully completed piece of the sync loop:
committed rows untouched, uncommitted rows only appended, no commit issued,
files only added or overwritten (never removed). -/
def StepInv (a b : SyncState) : Prop :=
  dbExtends a.db b.db ∧ b.commits = a.commits ∧ fsPreserves a.fs b.fs

/-- Whether an `Except` value is a normal return (no exception raised). -/
def exceptOk {ε α : Type} : Except ε α → Bool
  | .ok _ => true
  | .error _ => false

-- Concrete fixtures used by the counterexamples and witnesses below.

/-- An I/O environment in which every OS call succeeds. -/
def exEnv : IOEnv := ⟨fun _ => .ok (), fun _ _ => .ok ()⟩

/-- A category `m` accepting extension `mp4`, destination `/dst`, no exclusion. -/
def exCategory : MediaCategory := ⟨"m".toList, ["mp4".toList], "/dst".toList, none⟩

/-- Run parameters for an error-free run over `exCategory`. -/
def exParams : SyncParams :=
  ⟨exEnv, [exCategory], some ["mp4".toList], fun _ => true, fun _ => "t".toList⟩

/-- One source root `/src` under which two files are discovered, of which
only the first matches `exCategory`. -/
def exSources : List (List Char × List (List Char)) :=
  [("/src".toList, ["/src/a.mp4".toList, "/src/b.txt".toList])]

/-- Fresh initial state: empty ledger, the two source files on disk. -/
def exStart : SyncState :=
  ⟨⟨[], []⟩,
    ⟨[], [("/src/a.mp4".toList, "x".toList), ("/src/b.txt".toList, "y".toList)]⟩,
    [], [], 0, 0, 0⟩

/-- The ledger row created for `/src/a.mp4` in the run from `exStart`. -/
def exEntry : Entry := ⟨"/src/a.mp4".toList, "m".toList, "/dst/a.mp4".toList, "t".toList⟩

/-- The state after the first full run from `exStart`. -/
def exAfterRun1 : SyncState :=
  ⟨⟨[exEntry], []⟩,
    ⟨["/dst".toList],
      [("/dst/a.mp4".toList, "x".toList), ("/src/a.mp4".toList, "x".toList),
        ("/src/b.txt".toList, "y".toList)]⟩,
    [], [entryPrint exEntry], 1, 1, 1⟩

/-- The state after running a second time from `exAfterRun1`. -/
def exAfterRun2 : SyncState :=
  ⟨⟨[exEntry], []⟩, exAfterRun1.fs, [], [entryPrint exEntry], 1, 1, 2⟩

/-- Run parameters identical to `exParams` except that every ledger insert
fails (models an unwritable store). -/
def insFailParams : SyncParams :=
  ⟨exEnv, [exCategory], some ["mp4".toList], fun _ => false, fun _ => "t".toList⟩

/-- A source root with two matching files, for the insert-failure scenario. -/
def insFailSources : List (List Char × List (List Char)) :=
  [("/src".toList, ["/src/a.mp4".toList, "/src/c.mp4".toList])]

/-- Initial state holding both matching files. -/
def insFailStart : SyncState :=
  ⟨⟨[], []⟩,
    ⟨[], [("/src/a.mp4".toList, "x".toList), ("/src/c.mp4".toList, "z".toList)]⟩,
    [], [], 0, 0, 0⟩

/-- An I/O environment in which every file copy fails with "disk full". -/
def copyFailEnv : IOEnv := ⟨fun _ => .ok (), fun _ _ => .error "disk full".toList⟩

/-- Run parameters identical to `exParams` except that every copy fails. -/
def copyFailParams : SyncParams :=
  ⟨copyFailEnv, [exCategory], some ["mp4".toList], fun _ => true, fun _ => "t".toList⟩

/-- The state reached from `exStart` after the triple loop but before the
final `database.commit()`: the new row is still uncommitted. -/
def exPreCommit : SyncState :=
  ⟨⟨[], [exEntry]⟩, exAfterRun1.fs, [], [entryPrint exEntry], 1, 1, 0⟩

/-- A start state in which the destination file already exists with stale
content `old`, while the source holds `x`. -/
def overwriteStart : SyncState :=
  ⟨⟨[], []⟩,
    ⟨["/dst".toList],
      [("/dst/a.mp4".toList, "old".toList), ("/src/a.mp4".toList, "x".toList)]⟩,
    [], [], 0, 0, 0⟩

-- ======================================================================
-- Lemmas about the path helpers.
-- ======================================================================

theorem containsSeq_self_append (pat rest : List Char) :
    containsSeq pat (pat ++ rest) = true := by
  cases pat with
  | nil =>
    cases rest with
    | nil => rfl
    | cons c cs => simp [containsSeq, List.isPrefixOf]
  | cons p ps =>
    simp only [List.cons_append, containsSeq, Bool.or_eq_true]
    left
    rw [List.isPrefixOf_iff_prefix]
    exact List.prefix_append (p :: ps) rest

theorem removeAllAux_of_not_containsSeq (pat : List Char) :
    ∀ fuel s, containsSeq pat s = false → removeAllAux pat fuel s = s := by
  intro fuel
  induction fuel with
  | zero => intro s _; rfl
  | succ n ih =>
    intro s h
    cases s with
    | nil => rfl
    | cons c rest =>
      simp only [containsSeq, Bool.or_eq_false_iff] at h
      have hne : pat.isEmpty = false := by
        cases pat with
        | nil => simp [List.isPrefixOf] at h
        | cons p ps => rfl
      simp only [removeAllAux, hne, Bool.false_eq_true, if_false, h.1, ih rest h.2]

theorem removeAll_of_not_containsSeq (pat s : List Char)
    (h : containsSeq pat s = false) : removeAll pat s = s :=
  removeAllAux_of_not_containsSeq pat (s.length + 1) s h

theorem removeAll_append_of_not_containsSeq (pat rest : List Char)
    (hne : pat ≠ []) (h : containsSeq pat rest = false) :
    removeAll pat (pat ++ rest) = rest := by
  cases pat with
  | nil => exact absurd rfl hne
  | cons p ps =>
    have hpre : (p :: ps).isPrefixOf (p :: (ps ++ rest)) = true := by
      rw [List.isPrefixOf_iff_prefix]
      exact List.prefix_append (p :: ps) rest
    have hdrop : List.drop ((p :: ps).length - 1) (ps ++ rest) = rest := by
      simp only [List.length_cons, Nat.add_sub_cancel]
      exact List.drop_left ps rest
    simp only [removeAll, List.cons_append, removeAllAux, List.isEmpty_cons,
      Bool.false_eq_true, if_false, hpre, if_true, hdrop]
    split
    · have hd : List.drop ((p :: ps).length - 1) (ps.append rest) = rest := hdrop
      rw [hd]
      exact removeAllAux_of_not_containsSeq (p :: ps) _ rest h
    · simp [hpre] at *

-- ======================================================================
-- C2, C3, C5, C8: CategoryRule matching, path mapping, rule construction.
-- ======================================================================

/-- C2 (code bug): when a category's extension list is empty — the
configuration loop's "No specified extensions = allow all" case — `belongs`
returns `false` for every path, because line 72 of mediasync.py tests the
module-level global `extensions` (always a list, never `None`, in any run
that reaches the sync loop) instead of `self.extensions`, and the empty
`self.extensions` loop then never sets `extensionFound`.  The claim (and the
source's own comment) says such a rule accepts every extension. -/
theorem belongs_empty_extensions_rejects_all (g : List (List Char)) (n d p : List Char) :
    MediaCategory.belongs ⟨n, [], d, none⟩ (some g) p = false := rfl

/-- C3 (amended): the derived destination path is `destinationRoot` followed
by the suffix of `sourcePath` relative to `sourceRoot` whenever `sourceRoot`
occurs in `sourcePath` only as its prefix; the implementation removes every
occurrence of `sourceRoot` (Python `str.replace`), so the hypothesis that
`sourceRoot` does not reoccur in the suffix is required. -/
theorem copyCommand_preserves_relative_path (sourceRoot destinationRoot rest : List Char)
    (hne : sourceRoot ≠ []) (hno : containsSeq sourceRoot rest = false) :
    CopyCommand.init sourceRoot destinationRoot (sourceRoot ++ rest) =
      .ok ⟨sourceRoot ++ rest, destinationRoot ++ rest⟩ := by
  simp only [CopyCommand.init, containsSeq_self_append, if_true,
    removeAll_append_of_not_containsSeq sourceRoot rest hne hno]

/-- C3 witness: the amended mapping theorem applied at a concrete input. -/
theorem copyCommand_preserves_relative_path_witness :
    "/src".toList ≠ ([] : List Char) ∧
    containsSeq "/src".toList "/a/movie.mkv".toList = false ∧
    CopyCommand.init "/src".toList "/dst/movies".toList
        ("/src".toList ++ "/a/movie.mkv".toList) =
      .ok ⟨"/src".toList ++ "/a/movie.mkv".toList,
        "/dst/movies".toList ++ "/a/movie.mkv".toList⟩ :=
  ⟨by decide, by decide,
    copyCommand_preserves_relative_path "/src".toList "/dst/movies".toList
      "/a/movie.mkv".toList (by decide) (by decide)⟩

/-- C3 counterexample: `/a` is a true prefix of `/a/b/a/c`, but the derived
destination is `/d/b/c`, not `destinationRoot ++ suffix = /d/b/a/c`: the
replace-all drops the interior `/a` segment. -/
theorem copyCommand_destination_counterexample :
    "/a/b/a/c".toList = "/a".toList ++ "/b/a/c".toList ∧
    CopyCommand.init "/a".toList "/d".toList "/a/b/a/c".toList =
      .ok ⟨"/a/b/a/c".toList, "/d/b/c".toList⟩ ∧
    "/d/b/c".toList ≠ "/d".toList ++ "/b/a/c".toList := by decide

/-- C5 (amended): `CopyCommand` construction fails exactly when `sourcePath`
does not contain `sourceRoot` as a substring anywhere (not: as a prefix),
and when a processed pair does fail this test, the resulting
`AssertionError` is not caught by the sync loop: the whole run aborts. -/
theorem pathMismatch_aborts_run (P : SyncParams) (r d p f : List Char)
    (c : MediaCategory) (cs : List MediaCategory) (fls : List (List Char))
    (srcs : List (List Char × List (List Char))) (st : SyncState)
    (hcats : P.categories = c :: cs)
    (hcontains : st.db.containsPair f c.name = false)
    (hbelongs : c.belongs P.globalExtensions f = true)
    (hnotsub : containsSeq r f = false) :
    exceptOk (CopyCommand.init r d p) = containsSeq r p ∧
    syncRun P ((r, f :: fls) :: srcs) st = .error (.assertionError assertMsg) := by
  constructor
  · unfold CopyCommand.init
    by_cases h : containsSeq r p = true
    · simp [h, exceptOk]
    · have h' : containsSeq r p = false := by simpa using h
      simp [h', exceptOk]
  · have hpair : syncPair P r f c st = .error (.assertionError assertMsg) := by
      simp [syncPair, hcontains, hbelongs, CopyCommand.init, hnotsub]
    simp [syncRun, syncSources, syncFiles, syncCats, hcats, hpair]

/-- C5 witness: the amended theorem applied at a concrete input. -/
theorem pathMismatch_aborts_run_witness :
    exParams.categories = exCategory :: [] ∧
    exStart.db.containsPair "/x/a.mp4".toList exCategory.name = false ∧
    exCategory.belongs exParams.globalExtensions "/x/a.mp4".toList = true ∧
    containsSeq "/b".toList "/x/a.mp4".toList = false ∧
    (exceptOk (CopyCommand.init "/b".toList "/d".toList "/a/b/c".toList) =
        containsSeq "/b".toList "/a/b/c".toList ∧
      syncRun exParams [("/b".toList, ["/x/a.mp4".toList])] exStart =
        .error (.assertionError assertMsg)) :=
  ⟨rfl, by decide, by decide, by decide,
    pathMismatch_aborts_run exParams "/b".toList "/d".toList "/a/b/c".toList
      "/x/a.mp4".toList exCategory [] [] [] exStart rfl (by decide) (by decide) (by decide)⟩

/-- C5 counterexample: `/b` is not a prefix of `/a/b/c`, yet construction
succeeds (the check is a substring search), refuting "fails exactly when
sourcePath does not contain sourceRoot as a literal prefix". -/
theorem copyCommand_init_substring_counterexample :
    ("/b".toList.isPrefixOf "/a/b/c".toList) = false ∧
    CopyCommand.init "/b".toList "/d".toList "/a/b/c".toList =
      .ok ⟨"/a/b/c".toList, "/d/a/c".toList⟩ := by decide

/-- C8 (amended): a configuration section whose name matches the reserved
pattern (regex `^media`, case-insensitive) is silently skipped by the
category-initialization loop — construction does not fail, no error is
raised, and the run proceeds without a category for that section; every
other section (given its required `destination` option) yields its category. -/
theorem initCategories_skips_reserved (ss : List ConfigSection)
    (h : ∀ s ∈ ss, reservedSectionMatch s.name = false → s.destination.isSome) :
    initCategories ss =
      .ok ((ss.filter (fun s => !reservedSectionMatch s.name)).map sectionToCategory) := by
  induction ss with
  | nil => rfl
  | cons s rest ih =>
    have hrest : ∀ t ∈ rest, reservedSectionMatch t.name = false → t.destination.isSome :=
      fun t ht => h t (List.mem_cons_of_mem s ht)
    by_cases hres : reservedSectionMatch s.name = true
    · simp [initCategories, hres, List.filter_cons, ih hrest]
    · have hres' : reservedSectionMatch s.name = false := by simpa using hres
      obtain ⟨d, hd⟩ := Option.isSome_iff_exists.mp (h s (List.mem_cons_self s rest) hres')
      simp [initCategories, hres', hd, List.filter_cons, ih hrest]

/-- C8 witness: the amended theorem applied to a two-section configuration
containing one reserved-matching name. -/
theorem initCategories_skips_reserved_witness :
    (∀ s ∈ [(⟨"movies".toList, some ["mkv".toList], some "/dst/movies".toList, none⟩ : ConfigSection),
        ⟨"mediaclips".toList, some ["mp4".toList], some "/dst/clips".toList, none⟩],
      reservedSectionMatch s.name = false → s.destination.isSome) ∧
    initCategories
        [⟨"movies".toList, some ["mkv".toList], some "/dst/movies".toList, none⟩,
          ⟨"mediaclips".toList, some ["mp4".toList], some "/dst/clips".toList, none⟩] =
      .ok (([(⟨"movies".toList, some ["mkv".toList], some "/dst/movies".toList, none⟩ : ConfigSection),
          ⟨"mediaclips".toList, some ["mp4".toList], some "/dst/clips".toList, none⟩].filter
            (fun s => !reservedSectionMatch s.name)).map sectionToCategory) :=
  ⟨by decide, initCategories_skips_reserved _ (by decide)⟩

/-- C8 counterexample: the section name `mediaclips` collides with the
reserved pattern; category initialization succeeds with an empty category
list instead of failing — a silently working run without that category. -/
theorem initCategories_reserved_counterexample :
    reservedSectionMatch "mediaclips".toList = true ∧
    initCategories
        [⟨"mediaclips".toList, some ["mp4".toList], some "/dst/clips".toList, none⟩] =
      .ok [] :=
  ⟨by decide, rfl⟩

-- ======================================================================
-- Filesystem and ledger lemmas.
-- ======================================================================

theorem lookupFile_writeFile_self (fs : FS) (p content : List Char) :
    (fs.writeFile p content).lookupFile p = some content := by
  simp [FS.writeFile, FS.lookupFile, List.find?_cons]

theorem fsPreserves_refl (fs : FS) : fsPreserves fs fs := fun _ h => h

theorem fsPreserves_trans {a b c : FS} (h1 : fsPreserves a b) (h2 : fsPreserves b c) :
    fsPreserves a c := fun p h => h2 p (h1 p h)

theorem fsPreserves_writeFile (fs : FS) (p content : List Char) :
    fsPreserves fs (fs.writeFile p content) := by
  intro q h
  by_cases hpq : (p == q) = true
  · simp [FS.writeFile, FS.lookupFile, List.find?_cons, hpq]
  · have hpq' : (p == q) = false := by simpa using hpq
    simp only [FS.writeFile, FS.lookupFile, List.find?_cons, hpq'] at *
    exact h

theorem fsPreserves_mk_dirs (fs : FS) (dirs' : List (List Char)) :
    fsPreserves fs ⟨dirs', fs.files⟩ := fun _ h => h

theorem run_fsPreserves (cmd : CopyCommand) (env : IOEnv) (fs : FS) :
    fsPreserves fs (cmd.run env fs).2.1 := by
  unfold CopyCommand.run
  by_cases hdir : fs.isdir (destFolder cmd.destinationPath) = true
  · simp only [hdir, if_true]
    cases hlk : fs.lookupFile cmd.sourcePath with
    | none => simp [hlk]; exact fsPreserves_refl fs
    | some content =>
      cases hcp : env.copy cmd.sourcePath cmd.destinationPath with
      | error e => simp [hlk, hcp]; exact fsPreserves_refl fs
      | ok u => simp [hlk, hcp]; exact fsPreserves_writeFile fs _ _
  · have hdir' : fs.isdir (destFolder cmd.destinationPath) = false := by simpa using hdir
    simp only [hdir', Bool.false_eq_true, if_false]
    cases hmk : env.mkdir (destFolder cmd.destinationPath) with
    | error e => simp [hmk]; exact fsPreserves_refl fs
    | ok u =>
      simp only [hmk]
      cases hlk : FS.lookupFile ⟨destFolder cmd.destinationPath :: fs.dirs, fs.files⟩
          cmd.sourcePath with
      | none => simp [hlk]; exact fsPreserves_mk_dirs fs _
      | some content =>
        cases hcp : env.copy cmd.sourcePath cmd.destinationPath with
        | error e => simp [hlk, hcp]; exact fsPreserves_mk_dirs fs _
        | ok u =>
          simp [hlk, hcp]
          exact fsPreserves_trans (fsPreserves_mk_dirs fs _) (fsPreserves_writeFile _ _ _)

theorem run_ok_of_allOk (cmd : CopyCommand) (env : IOEnv) (fs : FS) (content : List Char)
    (hmk : ∀ q, env.mkdir q = .ok ()) (hcp : ∀ q1 q2, env.copy q1 q2 = .ok ())
    (hsrc : fs.lookupFile cmd.sourcePath = some content) :
    ∃ fs', cmd.run env fs = (true, fs', []) ∧
      fs'.lookupFile cmd.destinationPath = some content ∧ fsPreserves fs fs' := by
  unfold CopyCommand.run
  by_cases hdir : fs.isdir (destFolder cmd.destinationPath) = true
  · refine ⟨fs.writeFile cmd.destinationPath content, ?_, lookupFile_writeFile_self fs _ _,
      fsPreserves_writeFile fs _ _⟩
    simp [hdir, hsrc, hcp]
  · have hdir' : fs.isdir (destFolder cmd.destinationPath) = false := by simpa using hdir
    have hsrc1 : FS.lookupFile ⟨destFolder cmd.destinationPath :: fs.dirs, fs.files⟩
        cmd.sourcePath = some content := hsrc
    refine ⟨FS.writeFile ⟨destFolder cmd.destinationPath :: fs.dirs, fs.files⟩
        cmd.destinationPath content, ?_, lookupFile_writeFile_self _ _ _,
      fsPreserves_trans (fsPreserves_mk_dirs fs _) (fsPreserves_writeFile _ _ _)⟩
    simp [hdir', hmk, hsrc1, hcp]

theorem run_false_diag (cmd : CopyCommand) (env : IOEnv) (fs : FS) {fs' : FS}
    {ds : List (List Char)} (h : cmd.run env fs = (false, fs', ds)) : ds ≠ [] := by
  unfold CopyCommand.run at h
  by_cases hdir : fs.isdir (destFolder cmd.destinationPath) = true
  · simp only [hdir, if_true] at h
    cases hlk : fs.lookupFile cmd.sourcePath with
    | none => simp [hlk] at h; obtain ⟨-, h2⟩ := h; subst h2; simp
    | some content =>
      cases hcp : env.copy cmd.sourcePath cmd.destinationPath with
      | error e => simp [hlk, hcp] at h; obtain ⟨-, h2⟩ := h; subst h2; simp
      | ok u => simp [hlk, hcp] at h
  · have hdir' : fs.isdir (destFolder cmd.destinationPath) = false := by simpa using hdir
    simp only [hdir', Bool.false_eq_true, if_false] at h
    cases hmk : env.mkdir (destFolder cmd.destinationPath) with
    | error e => simp [hmk] at h; obtain ⟨-, h2⟩ := h; subst h2; simp
    | ok u =>
      simp only [hmk] at h
      cases hlk : FS.lookupFile ⟨destFolder cmd.destinationPath :: fs.dirs, fs.files⟩
          cmd.sourcePath with
      | none => simp [hlk] at h; obtain ⟨-, h2⟩ := h; subst h2; simp
      | some content =>
        cases hcp : env.copy cmd.sourcePath cmd.destinationPath with
        | error e => simp [hlk, hcp] at h; obtain ⟨-, h2⟩ := h; subst h2; simp
        | ok u => simp [hlk, hcp] at h

theorem containsPair_of_mem {db : DBState} {e : Entry} (h : e ∈ db.entries) :
    db.containsPair e.sourcePath e.categoryName = true := by
  simp only [DBState.containsPair, List.any_eq_true]
  exact ⟨e, h, by simp [entryMatches]⟩

theorem dbExtends_refl (d : DBState) : dbExtends d d := ⟨rfl, [], by simp⟩

theorem dbExtends_trans {d1 d2 d3 : DBState} (h1 : dbExtends d1 d2) (h2 : dbExtends d2 d3) :
    dbExtends d1 d3 := by
  obtain ⟨hc1, n1, hu1⟩ := h1
  obtain ⟨hc2, n2, hu2⟩ := h2
  exact ⟨hc2.trans hc1, n1 ++ n2, by rw [hu2, hu1, List.append_assoc]⟩

theorem dbExtends_insert (d : DBState) (e : Entry) : dbExtends d (d.insert e) :=
  ⟨rfl, [e], rfl⟩

theorem dbExtends_entries {d1 d2 : DBState} (h : dbExtends d1 d2) :
    ∃ new, d2.entries = d1.entries ++ new := by
  obtain ⟨hc, new, hu⟩ := h
  exact ⟨new, by simp [DBState.entries, hc, hu, List.append_assoc]⟩

theorem containsPair_of_extends {d1 d2 : DBState} {p c : List Char}
    (h : dbExtends d1 d2) (hc : d1.containsPair p c = true) :
    d2.containsPair p c = true := by
  obtain ⟨new, he⟩ := dbExtends_entries h
  simp [DBState.containsPair, he, List.any_append] at *
  exact Or.inl hc

theorem commit_entries (db : DBState) : db.commit.entries = db.entries := by
  simp [DBState.commit, DBState.entries]

theorem containsPair_commit (db : DBState) (p c : List Char) :
    db.commit.containsPair p c = db.containsPair p c := by
  simp [DBState.containsPair, commit_entries]

theorem uniquePairs_insert {db : DBState} {e : Entry}
    (hc : db.containsPair e.sourcePath e.categoryName = false)
    (hU : uniquePairs db.entries) : uniquePairs (db.insert e).entries := by
  have hent : (db.insert e).entries = db.entries ++ [e] := by
    simp [DBState.insert, DBState.entries, List.append_assoc]
  unfold uniquePairs at hU ⊢
  rw [hent, List.pairwise_append]
  refine ⟨hU, List.pairwise_singleton _ _, ?_⟩
  intro a ha b hb
  simp only [List.mem_singleton] at hb
  subst hb
  simp only [DBState.containsPair, List.any_eq_false, entryMatches] at hc
  have := hc a ha
  simp only [Bool.and_eq_true, beq_iff_eq] at this
  exact fun hcon => this ⟨hcon.1, hcon.2⟩

-- ======================================================================
-- Behaviour of one loop iteration and its lifting through the folds.
-- ======================================================================

theorem stepInv_refl (a : SyncState) : StepInv a a :=
  ⟨dbExtends_refl a.db, rfl, fsPreserves_refl a.fs⟩

theorem stepInv_trans {a b c : SyncState} (h1 : StepInv a b) (h2 : StepInv b c) :
    StepInv a c :=
  ⟨dbExtends_trans h1.1 h2.1, h2.2.1.trans h1.2.1, fsPreserves_trans h1.2.2 h2.2.2⟩

theorem syncPair_ok_spec {P : SyncParams} {r f : List Char} {c : MediaCategory}
    {st st' : SyncState} (h : syncPair P r f c st = .ok st') :
    st'.commits = st.commits ∧ fsPreserves st.fs st'.fs ∧
    (st'.db = st.db ∨ ∃ e, e.sourcePath = f ∧ e.categoryName = c.name ∧
      st.db.containsPair f c.name = false ∧ st'.db = st.db.insert e) := by
  unfold syncPair at h
  split at h
  · injection h with h
    subst h
    exact ⟨rfl, fsPreserves_refl _, Or.inl rfl⟩
  · next h1 =>
    have h1' : st.db.containsPair f c.name = false := by simpa using h1
    split at h
    · injection h with h
      subst h
      exact ⟨rfl, fsPreserves_refl _, Or.inl rfl⟩
    · split at h
      · exact absurd h (by simp)
      · next cmd hinit =>
        split at h
        next success fs2 diags heq =>
          dsimp only [] at h
          split at h
          · injection h with h
            subst h
            refine ⟨rfl, ?_, Or.inl rfl⟩
            have hp := run_fsPreserves cmd P.env st.fs
            rw [heq] at hp
            exact hp
          · split at h
            · injection h with h
              subst h
              refine ⟨rfl, ?_,
                Or.inr ⟨⟨f, c.name, cmd.destinationPath, P.clock st.time⟩, rfl, rfl, h1', rfl⟩⟩
              have hp := run_fsPreserves cmd P.env st.fs
              rw [heq] at hp
              exact hp
            · exact absurd h (by simp)

theorem syncPair_ok_inv {P : SyncParams} {r f : List Char} {c : MediaCategory}
    {st st' : SyncState} (h : syncPair P r f c st = .ok st') : StepInv st st' := by
  obtain ⟨hc, hfs, hdb⟩ := syncPair_ok_spec h
  refine ⟨?_, hc, hfs⟩
  rcases hdb with h | ⟨e, -, -, -, he⟩
  · rw [h]; exact dbExtends_refl st.db
  · rw [he]; exact dbExtends_insert st.db e

theorem syncPair_ok_unique {P : SyncParams} {r f : List Char} {c : MediaCategory}
    {st st' : SyncState} (h : syncPair P r f c st = .ok st')
    (hU : uniquePairs st.db.entries) : uniquePairs st'.db.entries := by
  obtain ⟨-, -, hdb⟩ := syncPair_ok_spec h
  rcases hdb with h | ⟨e, he1, he2, hc, he⟩
  · rw [h]; exact hU
  · rw [he]
    exact uniquePairs_insert (by rw [he1, he2]; exact hc) hU

theorem syncCats_ok_inv {P : SyncParams} {r f : List Char} :
    ∀ {cats : List MediaCategory} {st st' : SyncState},
      syncCats P r f cats st = .ok st' →
      StepInv st st' ∧ (uniquePairs st.db.entries → uniquePairs st'.db.entries) := by
  intro cats
  induction cats with
  | nil =>
    intro st st' h
    injection h with h
    subst h
    exact ⟨stepInv_refl st, fun hU => hU⟩
  | cons c cs ih =>
    intro st st' h
    unfold syncCats at h
    cases hp : syncPair P r f c st with
    | error e => rw [hp] at h; exact absurd h (by simp)
    | ok st1 =>
      rw [hp] at h
      obtain ⟨hinv, hU⟩ := ih h
      exact ⟨stepInv_trans (syncPair_ok_inv hp) hinv, fun hu => hU (syncPair_ok_unique hp hu)⟩

theorem syncFiles_ok_inv {P : SyncParams} {r : List Char} :
    ∀ {fls : List (List Char)} {st st' : SyncState},
      syncFiles P r fls st = .ok st' →
      StepInv st st' ∧ (uniquePairs st.db.entries → uniquePairs st'.db.entries) := by
  intro fls
  induction fls with
  | nil =>
    intro st st' h
    injection h with h
    subst h
    exact ⟨stepInv_refl st, fun hU => hU⟩
  | cons f rest ih =>
    intro st st' h
    unfold syncFiles at h
    cases hp : syncCats P r f P.categories st with
    | error e => rw [hp] at h; exact absurd h (by simp)
    | ok st1 =>
      rw [hp] at h
      obtain ⟨hinv1, hU1⟩ := syncCats_ok_inv hp
      obtain ⟨hinv, hU⟩ := ih h
      exact ⟨stepInv_trans hinv1 hinv, fun hu => hU (hU1 hu)⟩

theorem syncSources_ok_inv {P : SyncParams} :
    ∀ {sources : List (List Char × List (List Char))} {st st' : SyncState},
      syncSources P sources st = .ok st' →
      StepInv st st' ∧ (uniquePairs st.db.entries → uniquePairs st'.db.entries) := by
  intro sources
  induction sources with
  | nil =>
    intro st st' h
    injection h with h
    subst h
    exact ⟨stepInv_refl st, fun hU => hU⟩
  | cons s rest ih =>
    intro st st' h
    unfold syncSources at h
    cases hp : syncFiles P s.1 s.2 st with
    | error e => rw [hp] at h; exact absurd h (by simp)
    | ok st1 =>
      rw [hp] at h
      obtain ⟨hinv1, hU1⟩ := syncFiles_ok_inv hp
      obtain ⟨hinv, hU⟩ := ih h
      exact ⟨stepInv_trans hinv1 hinv, fun hu => hU (hU1 hu)⟩

theorem containsPair_insert_self (db : DBState) (e : Entry) :
    (db.insert e).containsPair e.sourcePath e.categoryName = true :=
  containsPair_of_mem (by simp [DBState.insert, DBState.entries])

theorem syncPair_noop {P : SyncParams} {r f : List Char} {c : MediaCategory}
    {st : SyncState}
    (h : st.db.containsPair f c.name = true ∨ c.belongs P.globalExtensions f = false) :
    syncPair P r f c st = .ok st := by
  by_cases hc : st.db.containsPair f c.name = true
  · unfold syncPair; rw [if_pos hc]
  · rcases h with h | h
    · exact absurd h hc
    · unfold syncPair; rw [if_neg hc]; simp [h]

theorem syncCats_noop {P : SyncParams} {r f : List Char} {st : SyncState} :
    ∀ cats : List MediaCategory,
      (∀ c ∈ cats, st.db.containsPair f c.name = true ∨
        c.belongs P.globalExtensions f = false) →
      syncCats P r f cats st = .ok st := by
  intro cats
  induction cats with
  | nil => intro _; rfl
  | cons c cs ih =>
    intro h
    unfold syncCats
    rw [syncPair_noop (h c (List.mem_cons_self c cs))]
    exact ih (fun c' hc' => h c' (List.mem_cons_of_mem c hc'))

theorem syncFiles_noop {P : SyncParams} {r : List Char} {st : SyncState} :
    ∀ fls : List (List Char),
      (∀ g ∈ fls, ∀ c ∈ P.categories, st.db.containsPair g c.name = true ∨
        c.belongs P.globalExtensions g = false) →
      syncFiles P r fls st = .ok st := by
  intro fls
  induction fls with
  | nil => intro _; rfl
  | cons f rest ih =>
    intro h
    unfold syncFiles
    rw [syncCats_noop P.categories (h f (List.mem_cons_self f rest))]
    exact ih (fun g hg => h g (List.mem_cons_of_mem f hg))

theorem syncSources_noop {P : SyncParams} {st : SyncState} :
    ∀ sources : List (List Char × List (List Char)),
      (∀ s ∈ sources, ∀ g ∈ s.2, ∀ c ∈ P.categories,
        st.db.containsPair g c.name = true ∨
        c.belongs P.globalExtensions g = false) →
      syncSources P sources st = .ok st := by
  intro sources
  induction sources with
  | nil => intro _; rfl
  | cons s rest ih =>
    intro h
    unfold syncSources
    rw [syncFiles_noop s.2 (h s (List.mem_cons_self s rest))]
    exact ih (fun s' hs' => h s' (List.mem_cons_of_mem s hs'))

theorem syncPair_error_spec {P : SyncParams} {r f : List Char} {c : MediaCategory}
    {st : SyncState} {err : SyncError} (h : syncPair P r f c st = .error err) :
    (∃ msg, err = .assertionError msg ∧ containsSeq r f = false) ∨
    (∃ e, err = .persistenceError e ∧ P.insertOk e = false) := by
  unfold syncPair at h
  split at h
  · exact absurd h (by simp)
  · split at h
    · exact absurd h (by simp)
    · split at h
      · next msg hinit =>
        injection h with h
        left
        refine ⟨msg, by rw [← h], ?_⟩
        unfold CopyCommand.init at hinit
        by_cases hcs : containsSeq r f = true
        · rw [if_pos hcs] at hinit; exact absurd hinit (by simp)
        · simpa using hcs
      · next cmd hinit =>
        split at h
        next success fs2 diags heq =>
          dsimp only [] at h
          split at h
          · exact absurd h (by simp)
          · split at h
            · exact absurd h (by simp)
            · next hins =>
              injection h with h
              right
              exact ⟨_, by rw [← h], by simpa using hins⟩

theorem syncPair_ok_total {P : SyncParams} {r f : List Char} {c : MediaCategory}
    {st : SyncState} (hr : containsSeq r f = true) (hIns : ∀ e, P.insertOk e = true) :
    ∃ st', syncPair P r f c st = .ok st' := by
  cases hsp : syncPair P r f c st with
  | ok st' => exact ⟨st', rfl⟩
  | error err =>
    rcases syncPair_error_spec hsp with ⟨msg, -, hcs⟩ | ⟨e, -, hins⟩
    · rw [hr] at hcs; exact absurd hcs (by simp)
    · rw [hIns e] at hins; exact absurd hins (by simp)

theorem syncCats_ok_total {P : SyncParams} {r f : List Char}
    (hr : containsSeq r f = true) (hIns : ∀ e, P.insertOk e = true) :
    ∀ (cats : List MediaCategory) (st : SyncState),
      ∃ st', syncCats P r f cats st = .ok st' := by
  intro cats
  induction cats with
  | nil => intro st; exact ⟨st, rfl⟩
  | cons c cs ih =>
    intro st
    obtain ⟨st1, h1⟩ := @syncPair_ok_total P r f c st hr hIns
    obtain ⟨st', h2⟩ := ih st1
    exact ⟨st', by unfold syncCats; rw [h1]; exact h2⟩

theorem syncFiles_ok_total {P : SyncParams} {r : List Char}
    (hIns : ∀ e, P.insertOk e = true) :
    ∀ (fls : List (List Char)) (st : SyncState),
      (∀ g ∈ fls, containsSeq r g = true) →
      ∃ st', syncFiles P r fls st = .ok st' := by
  intro fls
  induction fls with
  | nil => intro st _; exact ⟨st, rfl⟩
  | cons f rest ih =>
    intro st hroot
    obtain ⟨st1, h1⟩ := syncCats_ok_total (hroot f (List.mem_cons_self f rest)) hIns P.categories st
    obtain ⟨st', h2⟩ := ih st1 (fun g hg => hroot g (List.mem_cons_of_mem f hg))
    exact ⟨st', by unfold syncFiles; rw [h1]; exact h2⟩

theorem syncSources_ok_total {P : SyncParams} (hIns : ∀ e, P.insertOk e = true) :
    ∀ (sources : List (List Char × List (List Char))) (st : SyncState),
      (∀ s ∈ sources, ∀ g ∈ s.2, containsSeq s.1 g = true) →
      ∃ st', syncSources P sources st = .ok st' := by
  intro sources
  induction sources with
  | nil => intro st _; exact ⟨st, rfl⟩
  | cons s rest ih =>
    intro st hroot
    obtain ⟨st1, h1⟩ :=
      syncFiles_ok_total hIns s.2 st (fun g hg => hroot s (List.mem_cons_self s rest) g hg)
    obtain ⟨st', h2⟩ := ih st1 (fun s' hs' => hroot s' (List.mem_cons_of_mem s hs'))
    exact ⟨st', by unfold syncSources; rw [h1]; exact h2⟩

theorem syncRun_ok_total {P : SyncParams} (hIns : ∀ e, P.insertOk e = true)
    (sources : List (List Char × List (List Char))) (st : SyncState)
    (hroot : ∀ s ∈ sources, ∀ g ∈ s.2, containsSeq s.1 g = true) :
    ∃ st', syncRun P sources st = .ok st' := by
  obtain ⟨st1, h1⟩ := syncSources_ok_total hIns sources st hroot
  exact ⟨_, by unfold syncRun; rw [h1]⟩

theorem syncPair_run1 {P : SyncParams} {r f : List Char} {c : MediaCategory}
    {st : SyncState} (hmk : ∀ q, P.env.mkdir q = .ok ())
    (hcp : ∀ q1 q2, P.env.copy q1 q2 = .ok ()) (hIns : ∀ e, P.insertOk e = true)
    (hr : containsSeq r f = true) (hsrc : (st.fs.lookupFile f).isSome) :
    ∃ st', syncPair P r f c st = .ok st' ∧
      (st'.db.containsPair f c.name = true ∨
        c.belongs P.globalExtensions f = false) := by
  by_cases hc : st.db.containsPair f c.name = true
  · exact ⟨st, syncPair_noop (Or.inl hc), Or.inl hc⟩
  · by_cases hb : c.belongs P.globalExtensions f = true
    · obtain ⟨content, hcontent⟩ := Option.isSome_iff_exists.mp hsrc
      have hinit : CopyCommand.init r c.destination f =
          .ok ⟨f, c.destination ++ removeAll r f⟩ := by
        unfold CopyCommand.init; rw [if_pos hr]
      obtain ⟨fs', hrun, hdst, hpres⟩ :=
        run_ok_of_allOk ⟨f, c.destination ++ removeAll r f⟩ P.env st.fs content hmk hcp hcontent
      refine ⟨⟨st.db.insert ⟨f, c.name, c.destination ++ removeAll r f, P.clock st.time⟩, fs',
          st.stderrLog ++ [],
          st.stdoutLog ++ [entryPrint ⟨f, c.name, c.destination ++ removeAll r f, P.clock st.time⟩],
          st.copyAttempts + 1, st.time + 1, st.commits⟩, ?_, Or.inl ?_⟩
      · simp [syncPair, hc, hb, hinit, hrun, hIns]
      · exact containsPair_insert_self st.db ⟨f, c.name, _, _⟩
    · have hb' : c.belongs P.globalExtensions f = false := by simpa using hb
      exact ⟨st, syncPair_noop (Or.inr hb'), Or.inr hb'⟩

theorem syncCats_run1 {P : SyncParams} {r f : List Char}
    (hmk : ∀ q, P.env.mkdir q = .ok ())
    (hcp : ∀ q1 q2, P.env.copy q1 q2 = .ok ()) (hIns : ∀ e, P.insertOk e = true)
    (hr : containsSeq r f = true) :
    ∀ (cats : List MediaCategory) (st : SyncState), (st.fs.lookupFile f).isSome →
      ∃ st', syncCats P r f cats st = .ok st' ∧
        ∀ c ∈ cats, st'.db.containsPair f c.name = true ∨
          c.belongs P.globalExtensions f = false := by
  intro cats
  induction cats with
  | nil => intro st _; exact ⟨st, rfl, by simp⟩
  | cons c cs ih =>
    intro st hsrc
    obtain ⟨st1, h1, hprop⟩ := @syncPair_run1 P r f c st hmk hcp hIns hr hsrc
    have hinv1 := syncPair_ok_inv h1
    obtain ⟨st', h2, hall⟩ := ih st1 (hinv1.2.2 f hsrc)
    have hinv2 := (syncCats_ok_inv h2).1
    refine ⟨st', by unfold syncCats; rw [h1]; exact h2, ?_⟩
    intro c' hc'
    rcases List.mem_cons.mp hc' with rfl | hmem
    · rcases hprop with hcp1 | hbp
      · exact Or.inl (containsPair_of_extends hinv2.1 hcp1)
      · exact Or.inr hbp
    · exact hall c' hmem

theorem syncFiles_run1 {P : SyncParams} {r : List Char}
    (hmk : ∀ q, P.env.mkdir q = .ok ())
    (hcp : ∀ q1 q2, P.env.copy q1 q2 = .ok ()) (hIns : ∀ e, P.insertOk e = true) :
    ∀ (fls : List (List Char)) (st : SyncState),
      (∀ g ∈ fls, (st.fs.lookupFile g).isSome) →
      (∀ g ∈ fls, containsSeq r g = true) →
      ∃ st', syncFiles P r fls st = .ok st' ∧
        ∀ g ∈ fls, ∀ c ∈ P.categories,
          st'.db.containsPair g c.name = true ∨
          c.belongs P.globalExtensions g = false := by
  intro fls
  induction fls with
  | nil => intro st _ _; exact ⟨st, rfl, by simp⟩
  | cons f rest ih =>
    intro st hsrc hroot
    obtain ⟨st1, h1, hall1⟩ :=
      syncCats_run1 hmk hcp hIns (hroot f (List.mem_cons_self f rest)) P.categories st
        (hsrc f (List.mem_cons_self f rest))
    have hinv1 := (syncCats_ok_inv h1).1
    obtain ⟨st', h2, hall2⟩ := ih st1
      (fun g hg => hinv1.2.2 g (hsrc g (List.mem_cons_of_mem f hg)))
      (fun g hg => hroot g (List.mem_cons_of_mem f hg))
    have hinv2 := (syncFiles_ok_inv h2).1
    refine ⟨st', by unfold syncFiles; rw [h1]; exact h2, ?_⟩
    intro g hg c hc
    rcases List.mem_cons.mp hg with rfl | hmem
    · rcases hall1 c hc with h | h
      · exact Or.inl (containsPair_of_extends hinv2.1 h)
      · exact Or.inr h
    · exact hall2 g hmem c hc

theorem syncSources_run1 {P : SyncParams}
    (hmk : ∀ q, P.env.mkdir q = .ok ())
    (hcp : ∀ q1 q2, P.env.copy q1 q2 = .ok ()) (hIns : ∀ e, P.insertOk e = true) :
    ∀ (sources : List (List Char × List (List Char))) (st : SyncState),
      (∀ s ∈ sources, ∀ g ∈ s.2, (st.fs.lookupFile g).isSome) →
      (∀ s ∈ sources, ∀ g ∈ s.2, containsSeq s.1 g = true) →
      ∃ st', syncSources P sources st = .ok st' ∧
        ∀ s ∈ sources, ∀ g ∈ s.2, ∀ c ∈ P.categories,
          st'.db.containsPair g c.name = true ∨
          c.belongs P.globalExtensions g = false := by
  intro sources
  induction sources with
  | nil => intro st _ _; exact ⟨st, rfl, by simp⟩
  | cons s rest ih =>
    intro st hsrc hroot
    obtain ⟨st1, h1, hall1⟩ := syncFiles_run1 hmk hcp hIns s.2 st
      (fun g hg => hsrc s (List.mem_cons_self s rest) g hg)
      (fun g hg => hroot s (List.mem_cons_self s rest) g hg)
    have hinv1 := (syncFiles_ok_inv h1).1
    obtain ⟨st', h2, hall2⟩ := ih st1
      (fun s' hs' g hg => hinv1.2.2 g (hsrc s' (List.mem_cons_of_mem s hs') g hg))
      (fun s' hs' g hg => hroot s' (List.mem_cons_of_mem s hs') g hg)
    have hinv2 := (syncSources_ok_inv h2).1
    refine ⟨st', by unfold syncSources; rw [h1]; exact h2, ?_⟩
    intro s' hs' g hg c hc
    rcases List.mem_cons.mp hs' with rfl | hmem
    · rcases hall1 g hg c hc with h | h
      · exact Or.inl (containsPair_of_extends hinv2.1 h)
      · exact Or.inr h
    · exact hall2 s' hmem g hg c hc

-- ======================================================================
-- C1, C4, C6, C7, C9, C10: the sync loop.
-- ======================================================================

/-- C1 (amended): a second run over an unchanged source tree, configuration
and ledger after a fully successful first run performs zero additional
`CopyCommand.run` invocations and zero additional ledger inserts: the second
run returns with the loop state unchanged (only the final commit counter
advances, committing an unchanged row set); every pair recorded by the first
run is skipped at the ledger contains-check, and every remaining pair is
skipped at the same `belongs` check that skipped it in the first run, before
any copy is attempted. -/
theorem sync_second_run_amended (P : SyncParams)
    (sources : List (List Char × List (List Char))) (st0 st1 : SyncState)
    (hmk : ∀ q, P.env.mkdir q = .ok ()) (hcp : ∀ q1 q2, P.env.copy q1 q2 = .ok ())
    (hIns : ∀ e, P.insertOk e = true)
    (hsrc : ∀ s ∈ sources, ∀ g ∈ s.2, (st0.fs.lookupFile g).isSome)
    (hroot : ∀ s ∈ sources, ∀ g ∈ s.2, containsSeq s.1 g = true)
    (h1 : syncRun P sources st0 = .ok st1) :
    syncRun P sources st1 = .ok ⟨st1.db.commit, st1.fs, st1.stderrLog, st1.stdoutLog,
      st1.copyAttempts, st1.time, st1.commits + 1⟩ ∧
    st1.db.commit.entries = st1.db.entries ∧
    (∀ s ∈ sources, ∀ g ∈ s.2, ∀ c ∈ P.categories,
      st1.db.containsPair g c.name = true ∨
      c.belongs P.globalExtensions g = false) := by
  obtain ⟨stPre, hPre, hprop⟩ := syncSources_run1 hmk hcp hIns sources st0 hsrc hroot
  have h1' : syncRun P sources st0 = .ok ⟨stPre.db.commit, stPre.fs, stPre.stderrLog,
      stPre.stdoutLog, stPre.copyAttempts, stPre.time, stPre.commits + 1⟩ := by
    unfold syncRun; rw [hPre]
  have hst1 : st1 = ⟨stPre.db.commit, stPre.fs, stPre.stderrLog, stPre.stdoutLog,
      stPre.copyAttempts, stPre.time, stPre.commits + 1⟩ := by
    have := h1.symm.trans h1'
    injection this
  have hinv : ∀ s ∈ sources, ∀ g ∈ s.2, ∀ c ∈ P.categories,
      st1.db.containsPair g c.name = true ∨
      c.belongs P.globalExtensions g = false := by
    intro s hs g hg c hc
    rcases hprop s hs g hg c hc with h | h
    · left
      rw [hst1]
      dsimp only []
      rw [containsPair_commit]
      exact h
    · exact Or.inr h
  refine ⟨?_, commit_entries st1.db, hinv⟩
  unfold syncRun
  rw [syncSources_noop sources hinv]

/-- C1 witness: the amended idempotence theorem applied at the concrete
one-source, one-category scenario. -/
theorem sync_second_run_amended_witness :
    syncRun exParams exSources exAfterRun1 =
      .ok ⟨exAfterRun1.db.commit, exAfterRun1.fs, exAfterRun1.stderrLog,
        exAfterRun1.stdoutLog, exAfterRun1.copyAttempts, exAfterRun1.time,
        exAfterRun1.commits + 1⟩ ∧
    exAfterRun1.db.commit.entries = exAfterRun1.db.entries ∧
    (∀ s ∈ exSources, ∀ g ∈ s.2, ∀ c ∈ exParams.categories,
      exAfterRun1.db.containsPair g c.name = true ∨
      c.belongs exParams.globalExtensions g = false) :=
  sync_second_run_amended exParams exSources exStart exAfterRun1
    (fun _ => rfl) (fun _ _ => rfl) (fun _ => rfl) (by decide) (by decide) (by decide)

/-- C1 counterexample: after a fully successful first run in which
`/src/b.txt` matched no category, the second run indeed performs zero copies
and zero inserts, but the ledger contains-check for the pair
(`/src/b.txt`, `m`) is `false` — that pair is skipped by the `belongs`
check, not by the contains-check, refuting "for every (file, category) pair,
the ledger contains-check causes the pair to be skipped". -/
theorem sync_idempotence_counterexample :
    syncRun exParams exSources exStart = .ok exAfterRun1 ∧
    syncRun exParams exSources exAfterRun1 = .ok exAfterRun2 ∧
    exAfterRun2.copyAttempts = exAfterRun1.copyAttempts ∧
    exAfterRun2.db.entries = exAfterRun1.db.entries ∧
    exAfterRun1.db.containsPair "/src/b.txt".toList exCategory.name = false := by
  decide

/-- C4 (amended): when the ledger `INSERT` for a pair fails, the resulting
exception is not caught anywhere in the sync loop: `syncPair` raises it, the
enclosing loops propagate it, and the whole run aborts with no final commit
— the failure is not confined to that pair and the run does not continue
with the next candidate. -/
theorem insert_failure_aborts_run (P : SyncParams) (r f : List Char)
    (c : MediaCategory) (cs : List MediaCategory) (fls : List (List Char))
    (srcs : List (List Char × List (List Char))) (st : SyncState)
    (cmd : CopyCommand) (fs' : FS)
    (hcats : P.categories = c :: cs)
    (hcontains : st.db.containsPair f c.name = false)
    (hbelongs : c.belongs P.globalExtensions f = true)
    (hinit : CopyCommand.init r c.destination f = .ok cmd)
    (hrun : cmd.run P.env st.fs = (true, fs', []))
    (hins : P.insertOk ⟨f, c.name, cmd.destinationPath, P.clock st.time⟩ = false) :
    syncPair P r f c st =
      .error (.persistenceError ⟨f, c.name, cmd.destinationPath, P.clock st.time⟩) ∧
    syncRun P ((r, f :: fls) :: srcs) st =
      .error (.persistenceError ⟨f, c.name, cmd.destinationPath, P.clock st.time⟩) := by
  have hpair : syncPair P r f c st =
      .error (.persistenceError ⟨f, c.name, cmd.destinationPath, P.clock st.time⟩) := by
    simp [syncPair, hcontains, hbelongs, hinit, hrun, hins]
  exact ⟨hpair, by simp [syncRun, syncSources, syncFiles, syncCats, hcats, hpair]⟩

/-- C4 witness: the amended theorem applied at the concrete insert-failure
scenario. -/
theorem insert_failure_aborts_run_witness :
    syncPair insFailParams "/src".toList "/src/a.mp4".toList exCategory insFailStart =
      .error (.persistenceError
        ⟨"/src/a.mp4".toList, "m".toList, "/dst/a.mp4".toList, "t".toList⟩) ∧
    syncRun insFailParams
        [("/src".toList, ["/src/a.mp4".toList, "/src/c.mp4".toList])] insFailStart =
      .error (.persistenceError
        ⟨"/src/a.mp4".toList, "m".toList, "/dst/a.mp4".toList, "t".toList⟩) :=
  insert_failure_aborts_run insFailParams "/src".toList "/src/a.mp4".toList exCategory []
    ["/src/c.mp4".toList] [] insFailStart ⟨"/src/a.mp4".toList, "/dst/a.mp4".toList⟩
    ⟨["/dst".toList],
      [("/dst/a.mp4".toList, "x".toList), ("/src/a.mp4".toList, "x".toList),
        ("/src/c.mp4".toList, "z".toList)]⟩
    rfl (by decide) (by decide) (by decide) (by decide) rfl

/-- C4 counterexample: with a store that rejects writes, the run over two
matching files aborts with an uncaught persistence error at the first pair —
the failure is not reported-and-skipped, the second file is never processed,
and no commit happens — refuting "a ledger write failure never crashes the
whole run". -/
theorem insert_failure_counterexample :
    syncRun insFailParams insFailSources insFailStart =
      .error (.persistenceError
        ⟨"/src/a.mp4".toList, "m".toList, "/dst/a.mp4".toList, "t".toList⟩) := by
  decide

/-- C6: for a pair whose directory creation or file copy fails
(`CopyCommand.run` returns `False`), the orchestrator appends the caught
exception's message to `stderr` (the diagnostic list is never empty), writes
no ledger entry for the pair (the database state is unchanged), and
continues (`syncPair` returns normally); moreover, as long as every
discovered path contains its source root and inserts succeed, the whole run
completes normally no matter how many filesystem operations fail. -/
theorem copy_failure_skips_pair (P : SyncParams) (r f : List Char) (c : MediaCategory)
    (st : SyncState) (fs' : FS) (ds : List (List Char)) (cmd : CopyCommand)
    (hcontains : st.db.containsPair f c.name = false)
    (hbelongs : c.belongs P.globalExtensions f = true)
    (hinit : CopyCommand.init r c.destination f = .ok cmd)
    (hrun : cmd.run P.env st.fs = (false, fs', ds)) :
    syncPair P r f c st = .ok ⟨st.db, fs', st.stderrLog ++ ds, st.stdoutLog,
      st.copyAttempts + 1, st.time, st.commits⟩ ∧
    ds ≠ [] ∧
    (∀ (sources : List (List Char × List (List Char))) (st0 : SyncState),
      (∀ s ∈ sources, ∀ g ∈ s.2, containsSeq s.1 g = true) →
      (∀ e, P.insertOk e = true) →
      ∃ stF, syncRun P sources st0 = .ok stF) := by
  refine ⟨?_, run_false_diag cmd P.env st.fs hrun, ?_⟩
  · simp [syncPair, hcontains, hbelongs, hinit, hrun]
  · intro sources st0 hroot hIns
    exact syncRun_ok_total hIns sources st0 hroot

/-- C6 witness: the theorem applied at a concrete disk-full scenario. -/
theorem copy_failure_skips_pair_witness :
    syncPair copyFailParams "/src".toList "/src/a.mp4".toList exCategory exStart =
      .ok ⟨exStart.db, ⟨["/dst".toList], exStart.fs.files⟩,
        exStart.stderrLog ++ ["disk full".toList], exStart.stdoutLog,
        exStart.copyAttempts + 1, exStart.time, exStart.commits⟩ ∧
    ["disk full".toList] ≠ ([] : List (List Char)) ∧
    (∀ (sources : List (List Char × List (List Char))) (st0 : SyncState),
      (∀ s ∈ sources, ∀ g ∈ s.2, containsSeq s.1 g = true) →
      (∀ e, copyFailParams.insertOk e = true) →
      ∃ stF, syncRun copyFailParams sources st0 = .ok stF) :=
  copy_failure_skips_pair copyFailParams "/src".toList "/src/a.mp4".toList exCategory
    exStart ⟨["/dst".toList], exStart.fs.files⟩ ["disk full".toList]
    ⟨"/src/a.mp4".toList, "/dst/a.mp4".toList⟩
    (by decide) (by decide) (by decide) (by decide)

/-- C7: a successfully completed run only appends to the ledger — the rows
present before the run are an unchanged prefix of the rows after it — and it
preserves the uniqueness of the (sourcePath, categoryName) pair across all
rows; the schema initialization (`CREATE TABLE IF NOT EXISTS`) also leaves
the rows of an existing store untouched. -/
theorem ledger_append_only_unique (P : SyncParams)
    (sources : List (List Char × List (List Char))) (st st' : SyncState)
    (h : syncRun P sources st = .ok st') (hU : uniquePairs st.db.entries) :
    (∃ new, st'.db.entries = st.db.entries ++ new) ∧
    uniquePairs st'.db.entries ∧
    (∀ rows, (openDB (some rows)).entries = rows) := by
  unfold syncRun at h
  cases hs : syncSources P sources st with
  | error e => rw [hs] at h; exact absurd h (by simp)
  | ok stPre =>
    rw [hs] at h
    injection h with h
    subst h
    obtain ⟨hinv, hUimp⟩ := syncSources_ok_inv hs
    refine ⟨?_, ?_, fun rows => by simp [openDB, DBState.entries]⟩
    · obtain ⟨new, hent⟩ := dbExtends_entries hinv.1
      exact ⟨new, by dsimp only []; rw [commit_entries, hent]⟩
    · dsimp only []
      rw [commit_entries]
      exact hUimp hU

/-- C7 witness: the append-only/uniqueness theorem applied at the concrete
error-free run. -/
theorem ledger_append_only_unique_witness :
    (∃ new, exAfterRun1.db.entries = exStart.db.entries ++ new) ∧
    uniquePairs exAfterRun1.db.entries ∧
    (∀ rows, (openDB (some rows)).entries = rows) :=
  ledger_append_only_unique exParams exSources exStart exAfterRun1
    (by decide) List.Pairwise.nil

/-- C9: for a pair the orchestrator decides to copy (absent from the ledger,
accepted by `belongs`), the copy step succeeds and writes the source file's
content at the derived destination path for any filesystem in which the
source is readable and the OS calls succeed — in particular a pre-existing
file at the destination path never by itself causes a skip, a rename, or an
error: it is unconditionally overwritten with the source's content. -/
theorem copy_overwrites_destination (P : SyncParams) (r f content : List Char)
    (c : MediaCategory) (st : SyncState) (cmd : CopyCommand)
    (hcontains : st.db.containsPair f c.name = false)
    (hbelongs : c.belongs P.globalExtensions f = true)
    (hinit : CopyCommand.init r c.destination f = .ok cmd)
    (hmk : ∀ q, P.env.mkdir q = .ok ()) (hcp : ∀ q1 q2, P.env.copy q1 q2 = .ok ())
    (hsrc : st.fs.lookupFile f = some content)
    (hIns : ∀ e, P.insertOk e = true) :
    (cmd.run P.env st.fs).1 = true ∧
    (cmd.run P.env st.fs).2.1.lookupFile cmd.destinationPath = some content ∧
    ∃ st', syncPair P r f c st = .ok st' ∧
      st'.fs.lookupFile cmd.destinationPath = some content := by
  have hcmdsrc : cmd.sourcePath = f := by
    unfold CopyCommand.init at hinit
    split at hinit
    · injection hinit with hinit
      rw [← hinit]
    · exact absurd hinit (by simp)
  obtain ⟨fs', hrun, hdst, hpres⟩ :=
    run_ok_of_allOk cmd P.env st.fs content hmk hcp (by rw [hcmdsrc]; exact hsrc)
  refine ⟨by rw [hrun], by rw [hrun]; exact hdst, ?_⟩
  refine ⟨⟨st.db.insert ⟨f, c.name, cmd.destinationPath, P.clock st.time⟩, fs',
      st.stderrLog ++ [],
      st.stdoutLog ++ [entryPrint ⟨f, c.name, cmd.destinationPath, P.clock st.time⟩],
      st.copyAttempts + 1, st.time + 1, st.commits⟩, ?_, hdst⟩
  simp [syncPair, hcontains, hbelongs, hinit, hrun, hIns]

/-- C9 witness: the overwrite theorem applied at a state whose destination
file pre-exists with stale content `old`; the copy succeeds and the
destination afterwards holds the source's content `x`. -/
theorem copy_overwrites_destination_witness :
    (CopyCommand.run ⟨"/src/a.mp4".toList, "/dst/a.mp4".toList⟩ exParams.env
      overwriteStart.fs).1 = true ∧
    (CopyCommand.run ⟨"/src/a.mp4".toList, "/dst/a.mp4".toList⟩ exParams.env
      overwriteStart.fs).2.1.lookupFile "/dst/a.mp4".toList = some "x".toList ∧
    (∃ st', syncPair exParams "/src".toList "/src/a.mp4".toList exCategory
        overwriteStart = .ok st' ∧
      st'.fs.lookupFile "/dst/a.mp4".toList = some "x".toList) :=
  copy_overwrites_destination exParams "/src".toList "/src/a.mp4".toList "x".toList
    exCategory overwriteStart ⟨"/src/a.mp4".toList, "/dst/a.mp4".toList⟩
    (by decide) (by decide) (by decide) (fun _ => rfl) (fun _ _ => rfl)
    (by decide) (fun _ => rfl)

/-- C10: across the whole triple loop no commit is issued and nothing
reaches the committed rows — every row recorded during the run sits in the
connection's uncommitted list, where the contains-check (which reads
committed and uncommitted rows alike) sees it, and pairs visible to the
check only accumulate; the single commit happens once, after all sources,
files and categories are processed, moving all of the run's rows to the
committed list together. -/
theorem single_commit_at_end (P : SyncParams)
    (sources : List (List Char × List (List Char))) (st st' : SyncState)
    (h : syncSources P sources st = .ok st') :
    st'.commits = st.commits ∧
    st'.db.committed = st.db.committed ∧
    (∃ new, st'.db.uncommitted = st.db.uncommitted ++ new) ∧
    (∀ p c, st.db.containsPair p c = true → st'.db.containsPair p c = true) ∧
    (∀ e ∈ st'.db.uncommitted,
      st'.db.containsPair e.sourcePath e.categoryName = true) ∧
    syncRun P sources st = .ok ⟨st'.db.commit, st'.fs, st'.stderrLog, st'.stdoutLog,
      st'.copyAttempts, st'.time, st'.commits + 1⟩ ∧
    st'.db.commit.committed = st'.db.committed ++ st'.db.uncommitted ∧
    st'.db.commit.uncommitted = [] := by
  obtain ⟨hinv, -⟩ := syncSources_ok_inv h
  refine ⟨hinv.2.1, hinv.1.1, hinv.1.2,
    fun p c hc => containsPair_of_extends hinv.1 hc, ?_,
    by unfold syncRun; rw [h], rfl, rfl⟩
  intro e he
  refine containsPair_of_mem ?_
  simp only [DBState.entries, List.mem_append]
  exact Or.inr he

/-- C10 witness: the single-commit theorem applied at the concrete run,
whose pre-commit state holds the new row uncommitted. -/
theorem single_commit_at_end_witness :
    exPreCommit.commits = exStart.commits ∧
    exPreCommit.db.committed = exStart.db.committed ∧
    (∃ new, exPreCommit.db.uncommitted = exStart.db.uncommitted ++ new) ∧
    (∀ p c, exStart.db.containsPair p c = true →
      exPreCommit.db.containsPair p c = true) ∧
    (∀ e ∈ exPreCommit.db.uncommitted,
      exPreCommit.db.containsPair e.sourcePath e.categoryName = true) ∧
    syncRun exParams exSources exStart = .ok ⟨exPreCommit.db.commit, exPreCommit.fs,
      exPreCommit.stderrLog, exPreCommit.stdoutLog, exPreCommit.copyAttempts,
      exPreCommit.time, exPreCommit.commits + 1⟩ ∧
    exPreCommit.db.commit.committed =
      exPreCommit.db.committed ++ exPreCommit.db.uncommitted ∧
    exPreCommit.db.commit.uncommitted = [] :=
  single_commit_at_end exParams exSources exStart exPreCommit (by decide)
